import Mathlib

/-!
# Verification of `mergesort-cmp`

Shallow embedding of the comparator-parameterized merge sort library
(`src/parallel.rs` and `src/sequential.rs`) and proofs of its specified
properties.

The element type is abstract; Rust `Vec<T>`/`Arc<[T]>` values are modelled as
`List α`, `std::cmp::Ordering` as Lean's `Ordering`, iterators as the list of
their remaining elements, and `Range<usize>` as a pair of naturals (with
`Range::len` being truncated subtraction, as in Rust where `start > end` gives
an empty range).  Thread spawning does not affect the computed value (the
spawned closure computes the same pure function), so the parallel `split` is
modelled as the pure function it computes, and the number of `thread::spawn`
calls it performs is modelled separately by `spawnCount`.
-/

set_option maxHeartbeats 2000000
set_option linter.unusedVariables false

namespace MergesortCmp

universe u

variable {α : Type u}

/-- Embedding of `merge_while_less` (identical in `parallel.rs` lines 303-348
and `sequential.rs` lines 115-160).  State passed and returned explicitly:
given the remaining elements of the drained iterator `half`, the `pivot`
cell, and the `merged` accumulator, it returns the remaining iterator
elements, the new pivot, the new accumulator, and the returned `bool`.
With no pivot it appends all of `half` to `merged` and returns `false`;
otherwise it appends elements of `half` while they compare `lt` to the pivot,
and on the first element comparing `ge` (`!= lt`) it appends the old pivot,
installs that element as the new pivot and returns `true`; if `half` runs out
first it appends the old pivot, leaves no pivot, and returns `true`. -/
def mergeWhileLess (cmp : α → α → Ordering) :
    List α → Option α → List α → List α × Option α × List α × Bool
  | half, none, merged => ([], none, merged ++ half, false)
  | [], some p, merged => ([], none, merged ++ [p], true)
  | e :: rest, some p, merged =>
    if cmp e p = Ordering.lt then
      mergeWhileLess cmp rest (some p) (merged ++ [e])
    else
      (rest, some e, merged ++ [p], true)

/-- Embedding of the `while merge_while_less(upper...) && merge_while_less(lower...) {}`
loop in `merge` (`parallel.rs` lines 291-294, `sequential.rs` lines 103-106),
with the loop state (remaining lower iterator, remaining upper iterator,
pivot, merged accumulator) made explicit. -/
def mergeLoop (cmp : α → α → Ordering) (lower upper : List α)
    (pivot : Option α) (merged : List α) : List α :=
  match h1 : mergeWhileLess cmp upper pivot merged with
  | (_, _, merged', false) => merged'
  | (upper', pivot', merged', true) =>
    match h2 : mergeWhileLess cmp lower pivot' merged' with
    | (_, _, merged'', false) => merged''
    | (lower', pivot'', merged'', true) =>
      mergeLoop cmp lower' upper' pivot'' merged''
termination_by upper.length
decreasing_by
  have key : ∀ (half : List α) (p : α) (m u' : List α) (q : α) (m' : List α)
      (b : Bool), mergeWhileLess cmp half (some p) m = (u', some q, m', b) →
      u'.length < half.length := by
    intro half
    induction half with
    | nil =>
      intro p m u' q m' b h
      simp [mergeWhileLess] at h
    | cons e rest ih =>
      intro p m u' q m' b h
      rw [mergeWhileLess] at h
      by_cases hc : cmp e p = Ordering.lt
      · rw [if_pos hc] at h
        exact Nat.lt_succ_of_lt (ih p (m ++ [e]) u' q m' b h)
      · rw [if_neg hc] at h
        obtain ⟨h₁, -, -, -⟩ := Prod.mk.injEq .. ▸ h
        simp_all
  cases pivot with
  | none => simp [mergeWhileLess] at h1
  | some p =>
    cases pivot' with
    | none => simp [mergeWhileLess] at h2
    | some q => exact key upper p merged upper' q merged' true h1

/-- Embedding of `merge` (`parallel.rs` lines 276-298, `sequential.rs`
lines 88-110): the pivot is initialized to `lower_iter.next()`
(head of `lower`), then the loop interleaves drains of the two halves. -/
def merge (cmp : α → α → Ordering) (lower upper : List α) : List α :=
  mergeLoop cmp lower.tail upper lower.head? []

namespace Sequential

/-- Embedding of `split` from `sequential.rs` lines 61-85: a slice of length
greater than 1 is split at `(length + 1) / 2`, both halves recursively split,
and the results merged; otherwise the slice is returned as a fresh vector. -/
def split (cmp : α → α → Ordering) (array : List α) : List α :=
  if array.length > 1 then
    let half := (array.length + 1) / 2
    merge cmp (split cmp (array.take half)) (split cmp (array.drop half))
  else
    array
termination_by array.length
decreasing_by
  · simp only [List.length_take]
    omega
  · simp only [List.length_drop]
    omega

end Sequential

namespace Parallel

/-- Embedding of `split` from `parallel.rs` lines 216-273 as the pure value it
computes.  A range `start .. stop` of length greater than 1 (Rust
`Range::len`, i.e. truncated subtraction) is cut at
`start + (len + 1) / 2`; with `threads > 1` the upper half is solved by a
spawned worker with budget `threads / 2` and the lower half on the current
thread with budget `threads / 2`, otherwise both halves are solved on the
current thread with budget 1; the sorted halves are merged.  A range of
length at most 1 is copied out of the array (`array[range].to_vec()`). -/
def split (cmp : α → α → Ordering) (array : List α)
    (start stop threads : Nat) : List α :=
  if stop - start > 1 then
    let half := start + (stop - start + 1) / 2
    if threads > 1 then
      merge cmp (split cmp array start half (threads / 2))
        (split cmp array half stop (threads / 2))
    else
      merge cmp (split cmp array start half 1)
        (split cmp array half stop 1)
  else
    (array.drop start).take (stop - start)
termination_by stop - start
decreasing_by
  · omega
  · omega
  · omega
  · omega

/-- Number of `thread::spawn` calls performed by one invocation of
`Parallel.split` (`parallel.rs` lines 236-264), including the spawns of its
recursive calls on both halves.  The spawn decision depends only on the range
bounds and the thread budget, never on the array contents or the comparator:
one worker is spawned exactly when the range length exceeds 1 and the budget
exceeds 1. -/
def spawnCount (start stop threads : Nat) : Nat :=
  if stop - start > 1 then
    let half := start + (stop - start + 1) / 2
    if threads > 1 then
      1 + spawnCount start half (threads / 2) + spawnCount half stop (threads / 2)
    else
      spawnCount start half 1 + spawnCount half stop 1
  else
    0
termination_by stop - start
decreasing_by
  · omega
  · omega
  · omega
  · omega

/-- Panic-aware embedding of `Parallel.split`: the slice expression
`array[range]` in the base case (`parallel.rs` line 271) panics exactly when
`start > stop` or `stop > array.len()`; a panic anywhere in the recursion
(including inside a spawned worker, whose join then panics at line 254)
aborts the whole call, modelled by `none`. -/
def splitChecked (cmp : α → α → Ordering) (array : List α)
    (start stop threads : Nat) : Option (List α) :=
  if stop - start > 1 then
    let half := start + (stop - start + 1) / 2
    if threads > 1 then
      do
        let lower ← splitChecked cmp array start half (threads / 2)
        let upper ← splitChecked cmp array half stop (threads / 2)
        pure (merge cmp lower upper)
    else
      do
        let lower ← splitChecked cmp array start half 1
        let upper ← splitChecked cmp array half stop 1
        pure (merge cmp lower upper)
  else
    if start ≤ stop ∧ stop ≤ array.length then
      some ((array.drop start).take (stop - start))
    else
      none
termination_by stop - start
decreasing_by
  · omega
  · omega
  · omega
  · omega

/-- Embedding of `SortOptions` (`parallel.rs` lines 162-172): the thread
count, the comparison function, and the optional range (`None` selects the
full array). -/
structure SortOptions (α : Type u) where
  /-- On how many threads the sorting will be executed. -/
  threads : Nat
  /-- Comparison function. -/
  compare : α → α → Ordering
  /-- What range of the array will be sorted; `none` selects the full array. -/
  range : Option (Nat × Nat)

/-- Embedding of `SortOptions::sort` (`parallel.rs` lines 204-211): resolve
the effective range (`self.range.clone().unwrap_or(0 .. array.len())`) and
run the parallel `split` on it. -/
def SortOptions.sort (opts : SortOptions α) (array : List α) : List α :=
  let range := opts.range.getD (0, array.length)
  split opts.compare array range.1 range.2 opts.threads

end Parallel

/-- Textbook stable ascending two-pointer merge, written from the spec's
words (§4.1: the classical merge that compares the two head elements each
step and, on a tie, takes the left element first).  This is the spec-side
definition used for the refinement claim about `merge`. -/
def twoPointerMerge (cmp : α → α → Ordering) : List α → List α → List α
  | [], ys => ys
  | x :: xs, [] => x :: xs
  | x :: xs, y :: ys =>
    if cmp x y = Ordering.gt then y :: twoPointerMerge cmp (x :: xs) ys
    else x :: twoPointerMerge cmp xs (y :: ys)
termination_by xs ys => xs.length + ys.length

/-- The non-strict order induced by a comparator: `a` is not greater than
`b`.  The spec's order invariant requires exactly this relation between
adjacent output elements. -/
def cmpLe (cmp : α → α → Ordering) (a b : α) : Prop :=
  cmp a b ≠ Ordering.gt

instance instDecidableCmpLe (cmp : α → α → Ordering) (a b : α) :
    Decidable (cmpLe cmp a b) :=
  decidable_of_iff (cmp a b ≠ Ordering.gt) Iff.rfl

/-- A comparator is a (consistent) total order when swapping its arguments
swaps the answer and its induced `is not gt` relation is transitive. -/
structure TotalCmp (cmp : α → α → Ordering) : Prop where
  swap : ∀ a b, cmp a b = (cmp b a).swap
  le_trans : ∀ a b c, cmp a b ≠ Ordering.gt → cmp b c ≠ Ordering.gt →
    cmp a c ≠ Ordering.gt

/-- Concrete comparator on naturals used for witnesses. -/
def cmpN (a b : Nat) : Ordering :=
  if a < b then Ordering.lt else if a = b then Ordering.eq else Ordering.gt

/-- Concrete comparator on tagged naturals (comparing only the first
component) used to exhibit instability. -/
def cmpFst (a b : Nat × Nat) : Ordering :=
  cmpN a.1 b.1

/-! ## Basic lemmas about the drain step `mergeWhileLess` -/

/-- With no pivot, the drain appends all remaining elements and stops. -/
theorem mergeWhileLess_none (cmp : α → α → Ordering) (half m : List α) :
    mergeWhileLess cmp half none m = ([], none, m ++ half, false) := by
  cases half <;> simp [mergeWhileLess]

/-- Complete characterization of a drain step with a pivot: either some
element of `half` compares not-less-than the pivot — then the strictly-less
prefix `d₀` is emitted, followed by the old pivot, and that element becomes
the new pivot — or all of `half` is strictly less, in which case `half` and
then the old pivot are emitted and no pivot remains. -/
theorem mergeWhileLess_some_spec (cmp : α → α → Ordering) :
    ∀ (half : List α) (p : α) (m : List α),
    (∃ d₀ e h', (∀ x ∈ d₀, cmp x p = Ordering.lt) ∧ cmp e p ≠ Ordering.lt ∧
        half = d₀ ++ e :: h' ∧
        mergeWhileLess cmp half (some p) m = (h', some e, m ++ d₀ ++ [p], true)) ∨
    ((∀ x ∈ half, cmp x p = Ordering.lt) ∧
        mergeWhileLess cmp half (some p) m = ([], none, m ++ half ++ [p], true)) := by
  intro half
  induction half with
  | nil =>
    intro p m
    right
    refine ⟨by simp, ?_⟩
    simp [mergeWhileLess]
  | cons e rest ih =>
    intro p m
    by_cases hc : cmp e p = Ordering.lt
    · have hstep : mergeWhileLess cmp (e :: rest) (some p) m =
          mergeWhileLess cmp rest (some p) (m ++ [e]) := by
        rw [mergeWhileLess, if_pos hc]
      rcases ih p (m ++ [e]) with ⟨d₀, e', h', hd₀, he', hsplit, heq⟩ | ⟨hall, heq⟩
      · left
        refine ⟨e :: d₀, e', h', ?_, he', by simp [hsplit], ?_⟩
        · intro x hx
          rcases List.mem_cons.mp hx with rfl | hx
          · exact hc
          · exact hd₀ x hx
        · rw [hstep, heq]
          simp
      · right
        refine ⟨?_, ?_⟩
        · intro x hx
          rcases List.mem_cons.mp hx with rfl | hx
          · exact hc
          · exact hall x hx
        · rw [hstep, heq]
          simp
    · left
      refine ⟨[], e, rest, by simp, hc, by simp, ?_⟩
      rw [mergeWhileLess, if_neg hc]
      simp

/-! ## Step lemmas for the merge loop -/

/-- If the first drain (of the upper half) stops, the loop returns its
accumulator. -/
theorem mergeLoop_step_false {cmp : α → α → Ordering}
    (lower : List α) {upper : List α} {pivot : Option α} {merged : List α}
    {u' : List α} {p' : Option α} {m' : List α}
    (h : mergeWhileLess cmp upper pivot merged = (u', p', m', false)) :
    mergeLoop cmp lower upper pivot merged = m' := by
  rw [mergeLoop.eq_def]
  split
  · next heq =>
    rw [h] at heq
    obtain ⟨rfl, rfl, rfl⟩ := by simpa using heq
    rfl
  · next heq =>
    rw [h] at heq
    simp at heq

/-- If the first drain continues but the second (of the lower half) stops,
the loop returns the second accumulator. -/
theorem mergeLoop_step_true_false {cmp : α → α → Ordering}
    {lower upper : List α} {pivot : Option α} {merged : List α}
    {u' : List α} {p' : Option α} {m' : List α}
    {l' : List α} {p'' : Option α} {m'' : List α}
    (h1 : mergeWhileLess cmp upper pivot merged = (u', p', m', true))
    (h2 : mergeWhileLess cmp lower p' m' = (l', p'', m'', false)) :
    mergeLoop cmp lower upper pivot merged = m'' := by
  rw [mergeLoop.eq_def]
  split
  · next heq =>
    rw [h1] at heq
    simp at heq
  · next u2 p2 m2 heq =>
    rw [h1] at heq
    obtain ⟨rfl, rfl, rfl⟩ := by simpa using heq
    split
    · next heq2 =>
      rw [h2] at heq2
      obtain ⟨rfl, rfl, rfl⟩ := by simpa using heq2
      rfl
    · next heq2 =>
      rw [h2] at heq2
      simp at heq2

/-- If both drains continue, the loop recurses on the remainders. -/
theorem mergeLoop_step_true_true {cmp : α → α → Ordering}
    {lower upper : List α} {pivot : Option α} {merged : List α}
    {u' : List α} {p' : Option α} {m' : List α}
    {l' : List α} {p'' : Option α} {m'' : List α}
    (h1 : mergeWhileLess cmp upper pivot merged = (u', p', m', true))
    (h2 : mergeWhileLess cmp lower p' m' = (l', p'', m'', true)) :
    mergeLoop cmp lower upper pivot merged = mergeLoop cmp l' u' p'' m'' := by
  rw [mergeLoop.eq_def]
  split
  · next heq =>
    rw [h1] at heq
    simp at heq
  · next u2 p2 m2 heq =>
    rw [h1] at heq
    obtain ⟨rfl, rfl, rfl⟩ := by simpa using heq
    split
    · next heq2 =>
      rw [h2] at heq2
      simp at heq2
    · next l2 p2' m2' heq2 =>
      rw [h2] at heq2
      obtain ⟨rfl, rfl, rfl⟩ := by simpa using heq2
      rfl

/-- With no pivot the loop appends the upper half and stops (the lower half
iterator is necessarily already exhausted at such a state). -/
theorem mergeLoop_none (cmp : α → α → Ordering) (lower upper merged : List α) :
    mergeLoop cmp lower upper none merged = merged ++ upper :=
  mergeLoop_step_false lower (mergeWhileLess_none cmp upper merged)

/-! ## Permutation invariant of the merge loop -/

/-- Bounded-length form of the loop permutation invariant: the loop output is
a permutation of the accumulator, the pivot, and the two remaining halves.
(When the pivot is empty the loop drops the lower iterator, which in any
reachable state is already exhausted; hence the side condition.) -/
theorem mergeLoop_perm_aux (cmp : α → α → Ordering) :
    ∀ (n : Nat) (upper : List α), upper.length ≤ n →
    ∀ (lower : List α) (pivot : Option α) (merged : List α),
    (pivot = none → lower = []) →
    (mergeLoop cmp lower upper pivot merged).Perm
      (merged ++ pivot.toList ++ lower ++ upper) := by
  intro n
  induction n with
  | zero =>
    intro upper hlen lower pivot merged hnl
    have hup : upper = [] := List.length_eq_zero.mp (Nat.le_zero.mp hlen)
    subst hup
    cases pivot with
    | none =>
      rw [mergeLoop_none, hnl rfl]
      simp
    | some p =>
      have h1 : mergeWhileLess cmp [] (some p) merged =
          ([], none, merged ++ [p], true) := by
        rw [mergeWhileLess]
      rw [mergeLoop_step_true_false h1 (mergeWhileLess_none cmp lower (merged ++ [p]))]
      simp
  | succ n ih =>
    intro upper hlen lower pivot merged hnl
    cases pivot with
    | none =>
      rw [mergeLoop_none, hnl rfl]
      simp
    | some p =>
      rcases mergeWhileLess_some_spec cmp upper p merged with
        ⟨d₀, e, u', hd₀, he, hup, heq1⟩ | ⟨hall, heq1⟩
      · rcases mergeWhileLess_some_spec cmp lower e (merged ++ d₀ ++ [p]) with
          ⟨c₀, f, l', hc₀, hf, hlo, heq2⟩ | ⟨hall2, heq2⟩
        · rw [mergeLoop_step_true_true heq1 heq2]
          have hlen' : u'.length ≤ n := by
            subst hup
            simp at hlen
            omega
          refine (ih u' hlen' l' (some f) _ (by simp)).trans ?_
          subst hup hlo
          rw [← Multiset.coe_eq_coe]
          simp only [Option.toList_some, Option.toList_none, ← Multiset.coe_add,
            ← Multiset.cons_coe, ← Multiset.singleton_add, Multiset.coe_nil]
          abel
        · rw [mergeLoop_step_true_true heq1 heq2, mergeLoop_none]
          subst hup
          rw [← Multiset.coe_eq_coe]
          simp only [Option.toList_some, Option.toList_none, ← Multiset.coe_add,
            ← Multiset.cons_coe, ← Multiset.singleton_add, Multiset.coe_nil]
          abel
      · rw [mergeLoop_step_true_false heq1 (mergeWhileLess_none cmp lower _)]
        rw [← Multiset.coe_eq_coe]
        simp only [Option.toList_some, Option.toList_none, ← Multiset.coe_add,
            ← Multiset.cons_coe, ← Multiset.singleton_add, Multiset.coe_nil]
        abel

/-- The loop output is a permutation of the accumulator, the pivot, and the
two remaining halves, for every comparator. -/
theorem mergeLoop_perm (cmp : α → α → Ordering) (lower upper : List α)
    (pivot : Option α) (merged : List α) (hnl : pivot = none → lower = []) :
    (mergeLoop cmp lower upper pivot merged).Perm
      (merged ++ pivot.toList ++ lower ++ upper) :=
  mergeLoop_perm_aux cmp upper.length upper le_rfl lower pivot merged hnl

/-- The pivot-carrying `merge` returns a permutation of the concatenation of
its two inputs, for every comparator whatsoever. -/
theorem merge_perm (cmp : α → α → Ordering) (lower upper : List α) :
    (merge cmp lower upper).Perm (lower ++ upper) := by
  cases lower with
  | nil =>
    unfold merge
    simpa using mergeLoop_perm cmp [] upper none [] (fun _ => rfl)
  | cons p rest =>
    unfold merge
    simpa using mergeLoop_perm cmp rest upper (some p) [] (by simp)

/-! ## Sortedness invariant of the merge loop -/

theorem cmpLe_of_lt {cmp : α → α → Ordering} {a b : α}
    (h : cmp a b = Ordering.lt) : cmpLe cmp a b := by
  simp [cmpLe, h]

theorem TotalCmp.le_rev_of_not_lt {cmp : α → α → Ordering} (ht : TotalCmp cmp)
    {a b : α} (h : cmp a b ≠ Ordering.lt) : cmpLe cmp b a := by
  have hs := ht.swap b a
  unfold cmpLe
  rw [hs]
  cases hab : cmp a b with
  | lt => exact absurd hab h
  | eq => simp [Ordering.swap]
  | gt => simp [Ordering.swap]

theorem TotalCmp.le_refl {cmp : α → α → Ordering} (ht : TotalCmp cmp)
    (a : α) : cmpLe cmp a a := by
  have hs := ht.swap a a
  unfold cmpLe
  intro h
  rw [h] at hs
  simp [Ordering.swap] at hs

theorem TotalCmp.trans {cmp : α → α → Ordering} (ht : TotalCmp cmp)
    {a b c : α} (h1 : cmpLe cmp a b) (h2 : cmpLe cmp b c) : cmpLe cmp a c :=
  ht.le_trans a b c h1 h2

theorem TotalCmp.eq_of_eq_eq {cmp : α → α → Ordering} (ht : TotalCmp cmp)
    {a b x : α} (h1 : cmp a x = Ordering.eq) (h2 : cmp b x = Ordering.eq) :
    cmp a b = Ordering.eq := by
  have hxa : cmp x a = Ordering.eq := by
    have := ht.swap x a
    rw [this, h1]
    rfl
  have hxb : cmp x b = Ordering.eq := by
    have := ht.swap x b
    rw [this, h2]
    rfl
  have hab : cmpLe cmp a b :=
    ht.trans (show cmpLe cmp a x by simp [cmpLe, h1])
      (show cmpLe cmp x b by simp [cmpLe, hxb])
  have hba : cmpLe cmp b a :=
    ht.trans (show cmpLe cmp b x by simp [cmpLe, h2])
      (show cmpLe cmp x a by simp [cmpLe, hxa])
  have hs := ht.swap a b
  unfold cmpLe at hab hba
  rw [hs] at hab
  cases h : cmp b a <;> rw [h] at hab <;> simp [Ordering.swap] at hab ⊢ <;>
    first
    | rfl
    | (rw [hs, h]; rfl)
    | (exact absurd h hba)

/-- Bounded-length form of the loop sortedness invariant: if the two
remaining halves are sorted, the pivot is a lower bound of the lower half,
and the accumulator is sorted and bounded above by the pivot and both halves,
then the loop output is sorted. -/
theorem mergeLoop_pairwise_aux (cmp : α → α → Ordering) (ht : TotalCmp cmp) :
    ∀ (n : Nat) (upper : List α), upper.length ≤ n →
    ∀ (lower : List α) (pivot : Option α) (merged : List α),
    lower.Pairwise (cmpLe cmp) →
    upper.Pairwise (cmpLe cmp) →
    merged.Pairwise (cmpLe cmp) →
    (∀ p, pivot = some p → ∀ x ∈ lower, cmpLe cmp p x) →
    (∀ m ∈ merged, ∀ p, pivot = some p → cmpLe cmp m p) →
    (∀ m ∈ merged, ∀ x ∈ lower, cmpLe cmp m x) →
    (∀ m ∈ merged, ∀ x ∈ upper, cmpLe cmp m x) →
    (mergeLoop cmp lower upper pivot merged).Pairwise (cmpLe cmp) := by
  intro n
  induction n with
  | zero =>
    intro upper hlen lower pivot merged hlpw hupw hmpw hpl hmp hml hmu
    have hup : upper = [] := List.length_eq_zero.mp (Nat.le_zero.mp hlen)
    subst hup
    cases pivot with
    | none =>
      rw [mergeLoop_none]
      exact List.pairwise_append.mpr ⟨hmpw, List.Pairwise.nil, by simp⟩
    | some p =>
      have h1 : mergeWhileLess cmp [] (some p) merged =
          ([], none, merged ++ [p], true) := by
        rw [mergeWhileLess]
      rw [mergeLoop_step_true_false h1 (mergeWhileLess_none cmp lower (merged ++ [p]))]
      refine List.pairwise_append.mpr ⟨?_, hlpw, ?_⟩
      · refine List.pairwise_append.mpr ⟨hmpw, List.pairwise_singleton _ _, ?_⟩
        intro a ha b hb
        rw [List.mem_singleton] at hb
        rw [hb]
        exact hmp a ha p rfl
      · intro a ha b hb
        rcases List.mem_append.mp ha with ha | ha
        · exact hml a ha b hb
        · rw [List.mem_singleton] at ha
          rw [ha]
          exact hpl p rfl b hb
  | succ n ih =>
    intro upper hlen lower pivot merged hlpw hupw hmpw hpl hmp hml hmu
    cases pivot with
    | none =>
      rw [mergeLoop_none]
      exact List.pairwise_append.mpr ⟨hmpw, hupw, hmu⟩
    | some p =>
      have hple : ∀ x ∈ lower, cmpLe cmp p x := hpl p rfl
      have hmple : ∀ m ∈ merged, cmpLe cmp m p := fun m hm => hmp m hm p rfl
      rcases mergeWhileLess_some_spec cmp upper p merged with
        ⟨d₀, e, u', hd₀, he, hupeq, heq1⟩ | ⟨hall, heq1⟩
      · subst hupeq
        rw [List.pairwise_append] at hupw
        obtain ⟨hd₀pw, heu'pw, hd₀eu'⟩ := hupw
        rw [List.pairwise_cons] at heu'pw
        obtain ⟨heu', hu'pw⟩ := heu'pw
        have hd₀e : ∀ x ∈ d₀, cmpLe cmp x e :=
          fun x hx => hd₀eu' x hx e (List.mem_cons_self _ _)
        have hd₀u' : ∀ x ∈ d₀, ∀ y ∈ u', cmpLe cmp x y :=
          fun x hx y hy => hd₀eu' x hx y (List.mem_cons_of_mem _ hy)
        have hpe : cmpLe cmp p e := ht.le_rev_of_not_lt he
        have hlen' : u'.length ≤ n := by
          simp at hlen
          omega
        rcases mergeWhileLess_some_spec cmp lower e (merged ++ d₀ ++ [p]) with
          ⟨c₀, f, l', hc₀, hf, hloeq, heq2⟩ | ⟨hall2, heq2⟩
        · subst hloeq
          rw [List.pairwise_append] at hlpw
          obtain ⟨hc₀pw, hfl'pw, hc₀fl'⟩ := hlpw
          rw [List.pairwise_cons] at hfl'pw
          obtain ⟨hfl', hl'pw⟩ := hfl'pw
          have hc₀f : ∀ x ∈ c₀, cmpLe cmp x f :=
            fun x hx => hc₀fl' x hx f (List.mem_cons_self _ _)
          have hc₀l' : ∀ x ∈ c₀, ∀ y ∈ l', cmpLe cmp x y :=
            fun x hx y hy => hc₀fl' x hx y (List.mem_cons_of_mem _ hy)
          have hef : cmpLe cmp e f := ht.le_rev_of_not_lt hf
          have hfmem : f ∈ c₀ ++ f :: l' := by simp
          have hplef : cmpLe cmp p f := hple f hfmem
          rw [mergeLoop_step_true_true heq1 heq2]
          have hMmem : ∀ m ∈ merged ++ d₀ ++ [p] ++ c₀ ++ [e],
              m ∈ merged ∨ m ∈ d₀ ∨ m = p ∨ m ∈ c₀ ∨ m = e := by
            intro m hm
            simp only [List.mem_append, List.mem_singleton] at hm
            tauto
          have hMle : ∀ m ∈ merged ++ d₀ ++ [p] ++ c₀ ++ [e],
              ∀ y, (y = f ∨ y ∈ l' ∨ y ∈ u') → cmpLe cmp m y := by
            intro m hm y hy
            have hylow : y = f ∨ y ∈ l' → y ∈ c₀ ++ f :: l' := by
              intro h
              rcases h with rfl | h
              · simp
              · simp [h]
            rcases hMmem m hm with hm' | hm' | rfl | hm' | rfl
            · rcases hy with rfl | hy | hy
              · exact hml m hm' y (hylow (Or.inl rfl))
              · exact hml m hm' y (hylow (Or.inr hy))
              · exact hmu m hm' y (by simp [hy])
            · rcases hy with rfl | hy | hy
              · exact ht.trans (cmpLe_of_lt (hd₀ m hm')) (hple y (hylow (Or.inl rfl)))
              · exact ht.trans (cmpLe_of_lt (hd₀ m hm')) (hple y (hylow (Or.inr hy)))
              · exact hd₀u' m hm' y hy
            · rcases hy with rfl | hy | hy
              · exact hplef
              · exact hple y (hylow (Or.inr hy))
              · exact ht.trans hpe (heu' y hy)
            · rcases hy with rfl | hy | hy
              · exact hc₀f m hm'
              · exact hc₀l' m hm' y hy
              · exact ht.trans (cmpLe_of_lt (hc₀ m hm')) (heu' y hy)
            · rcases hy with rfl | hy | hy
              · exact hef
              · exact ht.trans hef (hfl' y hy)
              · exact heu' y hy
          refine ih u' hlen' l' (some f) _ hl'pw hu'pw ?_ ?_ ?_ ?_ ?_
          · -- the new accumulator is sorted
            refine List.pairwise_append.mpr ⟨?_, List.pairwise_singleton _ _, ?_⟩
            · refine List.pairwise_append.mpr ⟨?_, hc₀pw, ?_⟩
              · refine List.pairwise_append.mpr
                  ⟨?_, List.pairwise_singleton _ _, ?_⟩
                · refine List.pairwise_append.mpr ⟨hmpw, hd₀pw, ?_⟩
                  intro a ha b hb
                  exact hmu a ha b (by simp [hb])
                · intro a ha b hb
                  rw [List.mem_singleton] at hb
                  rw [hb]
                  rcases List.mem_append.mp ha with ha | ha
                  · exact hmple a ha
                  · exact cmpLe_of_lt (hd₀ a ha)
              · intro a ha b hb
                have hblow : b ∈ c₀ ++ f :: l' := by simp [hb]
                rcases List.mem_append.mp ha with ha | ha
                · rcases List.mem_append.mp ha with ha | ha
                  · exact hml a ha b hblow
                  · exact ht.trans (cmpLe_of_lt (hd₀ a ha)) (hple b hblow)
                · rw [List.mem_singleton] at ha
                  rw [ha]
                  exact hple b hblow
            · intro a ha b hb
              rw [List.mem_singleton] at hb
              rw [hb]
              rcases hMmem a (List.mem_append_left _ ha) with ha' | ha' | rfl | ha' | rfl
              · exact hmu a ha' e (by simp)
              · exact hd₀e a ha'
              · exact hpe
              · exact cmpLe_of_lt (hc₀ a ha')
              · exact ht.le_refl _
          · intro q hq x hx
            cases hq
            exact hfl' x hx
          · intro m hm q hq
            cases hq
            exact hMle m hm f (Or.inl rfl)
          · intro m hm x hx
            exact hMle m hm x (Or.inr (Or.inl hx))
          · intro m hm x hx
            exact hMle m hm x (Or.inr (Or.inr hx))
        · -- the lower half is exhausted strictly below the new pivot `e`
          rw [mergeLoop_step_true_true heq1 heq2, mergeLoop_none]
          have hlow_e : ∀ x ∈ lower, cmpLe cmp x e :=
            fun x hx => cmpLe_of_lt (hall2 x hx)
          refine List.pairwise_append.mpr ⟨?_, hu'pw, ?_⟩
          · refine List.pairwise_append.mpr ⟨?_, List.pairwise_singleton _ _, ?_⟩
            · refine List.pairwise_append.mpr ⟨?_, hlpw, ?_⟩
              · refine List.pairwise_append.mpr
                  ⟨?_, List.pairwise_singleton _ _, ?_⟩
                · refine List.pairwise_append.mpr ⟨hmpw, hd₀pw, ?_⟩
                  intro a ha b hb
                  exact hmu a ha b (by simp [hb])
                · intro a ha b hb
                  rw [List.mem_singleton] at hb
                  rw [hb]
                  rcases List.mem_append.mp ha with ha | ha
                  · exact hmple a ha
                  · exact cmpLe_of_lt (hd₀ a ha)
              · intro a ha b hb
                rcases List.mem_append.mp ha with ha | ha
                · rcases List.mem_append.mp ha with ha | ha
                  · exact hml a ha b hb
                  · exact ht.trans (cmpLe_of_lt (hd₀ a ha)) (hple b hb)
                · rw [List.mem_singleton] at ha
                  rw [ha]
                  exact hple b hb
            · intro a ha b hb
              rw [List.mem_singleton] at hb
              rw [hb]
              rcases List.mem_append.mp ha with ha | ha
              · rcases List.mem_append.mp ha with ha | ha
                · rcases List.mem_append.mp ha with ha | ha
                  · exact hmu a ha e (by simp)
                  · exact hd₀e a ha
                · rw [List.mem_singleton] at ha
                  rw [ha]
                  exact hpe
              · exact hlow_e a ha
          · intro a ha b hb
            rcases List.mem_append.mp ha with ha | ha
            · rcases List.mem_append.mp ha with ha | ha
              · rcases List.mem_append.mp ha with ha | ha
                · rcases List.mem_append.mp ha with ha | ha
                  · exact hmu a ha b (by simp [hb])
                  · exact hd₀u' a ha b hb
                · rw [List.mem_singleton] at ha
                  rw [ha]
                  exact ht.trans hpe (heu' b hb)
              · exact ht.trans (hlow_e a ha) (heu' b hb)
            · rw [List.mem_singleton] at ha
              rw [ha]
              exact heu' b hb
      · -- the upper half is exhausted strictly below the pivot
        rw [mergeLoop_step_true_false heq1 (mergeWhileLess_none cmp lower _)]
        have hup_p : ∀ x ∈ upper, cmpLe cmp x p :=
          fun x hx => cmpLe_of_lt (hall x hx)
        refine List.pairwise_append.mpr ⟨?_, hlpw, ?_⟩
        · refine List.pairwise_append.mpr ⟨?_, List.pairwise_singleton _ _, ?_⟩
          · refine List.pairwise_append.mpr ⟨hmpw, hupw, hmu⟩
          · intro a ha b hb
            rw [List.mem_singleton] at hb
            rw [hb]
            rcases List.mem_append.mp ha with ha | ha
            · exact hmple a ha
            · exact hup_p a ha
        · intro a ha b hb
          rcases List.mem_append.mp ha with ha | ha
          · rcases List.mem_append.mp ha with ha | ha
            · exact hml a ha b hb
            · exact ht.trans (hup_p a ha) (hple b hb)
          · rw [List.mem_singleton] at ha
            rw [ha]
            exact hple b hb

/-- Sorted inputs produce a sorted `merge` output, for every total-order
comparator. -/
theorem merge_pairwise {cmp : α → α → Ordering} (ht : TotalCmp cmp)
    {lower upper : List α} (hl : lower.Pairwise (cmpLe cmp))
    (hu : upper.Pairwise (cmpLe cmp)) :
    (merge cmp lower upper).Pairwise (cmpLe cmp) := by
  cases lower with
  | nil =>
    unfold merge
    simp only [List.tail_nil, List.head?_nil]
    rw [mergeLoop_none]
    simpa using hu
  | cons p rest =>
    unfold merge
    simp only [List.tail_cons, List.head?_cons]
    rw [List.pairwise_cons] at hl
    exact mergeLoop_pairwise_aux cmp ht upper.length upper le_rfl rest (some p) []
      hl.2 hu List.Pairwise.nil
      (fun q hq => by cases hq; exact hl.1)
      (by simp) (by simp) (by simp)

/-! ## Equivalence of `merge` with the textbook two-pointer merge -/

theorem twoPointerMerge_nil_left (cmp : α → α → Ordering) (ys : List α) :
    twoPointerMerge cmp [] ys = ys := by
  rw [twoPointerMerge]

theorem twoPointerMerge_nil_right (cmp : α → α → Ordering) (xs : List α) :
    twoPointerMerge cmp xs [] = xs := by
  cases xs <;> rw [twoPointerMerge]

theorem twoPointerMerge_cons_cons (cmp : α → α → Ordering) (x y : α)
    (xs ys : List α) :
    twoPointerMerge cmp (x :: xs) (y :: ys) =
      if cmp x y = Ordering.gt then y :: twoPointerMerge cmp (x :: xs) ys
      else x :: twoPointerMerge cmp xs (y :: ys) := by
  rw [twoPointerMerge]

/-- The two-pointer merge emits a run of right-hand elements that all compare
greater-from-the-left. -/
theorem twoPointerMerge_drain_right (cmp : α → α → Ordering) (x : α)
    (xs : List α) :
    ∀ (ys zs : List α), (∀ y ∈ ys, cmp x y = Ordering.gt) →
    twoPointerMerge cmp (x :: xs) (ys ++ zs) =
      ys ++ twoPointerMerge cmp (x :: xs) zs := by
  intro ys
  induction ys with
  | nil =>
    intro zs h
    simp
  | cons y ys ih =>
    intro zs h
    rw [List.cons_append, twoPointerMerge_cons_cons,
      if_pos (h y (List.mem_cons_self _ _)),
      ih zs (fun y' hy' => h y' (List.mem_cons_of_mem _ hy')), List.cons_append]

/-- The two-pointer merge emits a run of left-hand elements that are all
not greater than the right-hand head. -/
theorem twoPointerMerge_drain_left (cmp : α → α → Ordering) (y : α)
    (ys : List α) :
    ∀ (xs ws : List α), (∀ x ∈ xs, cmp x y ≠ Ordering.gt) →
    twoPointerMerge cmp (xs ++ ws) (y :: ys) =
      xs ++ twoPointerMerge cmp ws (y :: ys) := by
  intro xs
  induction xs with
  | nil =>
    intro ws h
    simp
  | cons x xs ih =>
    intro ws h
    rw [List.cons_append, twoPointerMerge_cons_cons,
      if_neg (h x (List.mem_cons_self _ _)),
      ih ws (fun x' hx' => h x' (List.mem_cons_of_mem _ hx')), List.cons_append]

/-- Bounded-length form of the equivalence: in a loop state with pivot `p`
held on the lower side, if no element on the lower side (including the
pivot) ties with an element of the upper side, the loop computes exactly the
two-pointer merge of `p :: lower` with `upper`. -/
theorem mergeLoop_eq_twoPointer_aux (cmp : α → α → Ordering)
    (ht : TotalCmp cmp) :
    ∀ (n : Nat) (upper : List α), upper.length ≤ n →
    ∀ (lower : List α) (p : α) (merged : List α),
    (∀ x, (x = p ∨ x ∈ lower) → ∀ y ∈ upper, cmp x y ≠ Ordering.eq) →
    mergeLoop cmp lower upper (some p) merged =
      merged ++ twoPointerMerge cmp (p :: lower) upper := by
  intro n
  induction n with
  | zero =>
    intro upper hlen lower p merged hnt
    have hup : upper = [] := List.length_eq_zero.mp (Nat.le_zero.mp hlen)
    subst hup
    have h1 : mergeWhileLess cmp [] (some p) merged =
        ([], none, merged ++ [p], true) := by
      rw [mergeWhileLess]
    rw [mergeLoop_step_true_false h1 (mergeWhileLess_none cmp lower (merged ++ [p])),
      twoPointerMerge_nil_right]
    simp
  | succ n ih =>
    intro upper hlen lower p merged hnt
    rcases mergeWhileLess_some_spec cmp upper p merged with
      ⟨d₀, e, u', hd₀, he, hupeq, heq1⟩ | ⟨hall, heq1⟩
    · subst hupeq
      have hemem : e ∈ d₀ ++ e :: u' := by simp
      have hpe_ne : cmp p e ≠ Ordering.eq := hnt p (Or.inl rfl) e hemem
      have hep_gt : cmp e p = Ordering.gt := by
        cases h : cmp e p with
        | lt => exact absurd h he
        | eq =>
          exfalso
          apply hpe_ne
          rw [ht.swap p e, h]
          rfl
        | gt => rfl
      have hpe_lt : cmp p e = Ordering.lt := by
        rw [ht.swap p e, hep_gt]
        rfl
      have hd₀gt : ∀ y ∈ d₀, cmp p y = Ordering.gt := by
        intro y hy
        rw [ht.swap p y, hd₀ y hy]
        rfl
      have hlen' : u'.length ≤ n := by
        simp at hlen
        omega
      rcases mergeWhileLess_some_spec cmp lower e (merged ++ d₀ ++ [p]) with
        ⟨c₀, f, l', hc₀, hf, hloeq, heq2⟩ | ⟨hall2, heq2⟩
      · subst hloeq
        have hfe_gt : cmp f e = Ordering.gt := by
          cases h : cmp f e with
          | lt => exact absurd h hf
          | eq =>
            exact absurd h (hnt f (Or.inr (by simp)) e hemem)
          | gt => rfl
        rw [mergeLoop_step_true_true heq1 heq2]
        rw [ih u' hlen' l' f _ ?ties]
        case ties =>
          intro x hx y hy
          refine hnt x ?_ y (by simp [hy])
          rcases hx with rfl | hx
          · exact Or.inr (by simp)
          · exact Or.inr (by simp [hx])
        rw [twoPointerMerge_drain_right cmp p _ d₀ (e :: u') hd₀gt,
          twoPointerMerge_cons_cons, if_neg (by rw [hpe_lt]; simp),
          twoPointerMerge_drain_left cmp e u' c₀ (f :: l')
            (fun x hx => by rw [hc₀ x hx]; simp),
          twoPointerMerge_cons_cons, if_pos hfe_gt]
        simp
      · rw [mergeLoop_step_true_true heq1 heq2, mergeLoop_none]
        rw [twoPointerMerge_drain_right cmp p _ d₀ (e :: u') hd₀gt,
          twoPointerMerge_cons_cons, if_neg (by rw [hpe_lt]; simp)]
        have hlow : twoPointerMerge cmp lower (e :: u') = lower ++ e :: u' := by
          have h3 := twoPointerMerge_drain_left cmp e u' lower []
            (fun x hx => by rw [hall2 x hx]; simp)
          rw [List.append_nil] at h3
          rw [h3, twoPointerMerge_nil_left]
        rw [hlow]
        simp
    · rw [mergeLoop_step_true_false heq1 (mergeWhileLess_none cmp lower _)]
      have hupgt : ∀ y ∈ upper, cmp p y = Ordering.gt := by
        intro y hy
        rw [ht.swap p y, hall y hy]
        rfl
      have hfull : twoPointerMerge cmp (p :: lower) upper = upper ++ p :: lower := by
        have h1 := twoPointerMerge_drain_right cmp p lower upper [] hupgt
        rw [List.append_nil, twoPointerMerge_nil_right] at h1
        exact h1
      rw [hfull]
      simp

/-- When no element of the (sorted) lower sequence ties with an element of
the (sorted) upper sequence, the pivot-carrying `merge` coincides with the
textbook stable two-pointer merge. -/
theorem merge_eq_twoPointerMerge {cmp : α → α → Ordering} (ht : TotalCmp cmp)
    {lower upper : List α}
    (hnt : ∀ x ∈ lower, ∀ y ∈ upper, cmp x y ≠ Ordering.eq) :
    merge cmp lower upper = twoPointerMerge cmp lower upper := by
  cases lower with
  | nil =>
    unfold merge
    simp only [List.tail_nil, List.head?_nil]
    rw [mergeLoop_none, twoPointerMerge_nil_left]
    rfl
  | cons p rest =>
    unfold merge
    simp only [List.tail_cons, List.head?_cons]
    rw [mergeLoop_eq_twoPointer_aux cmp ht upper.length upper le_rfl rest p []
      (fun x hx y hy => by
        rcases hx with rfl | hx
        · exact hnt x (List.mem_cons_self _ _) y hy
        · exact hnt x (List.mem_cons_of_mem _ hx) y hy)]
    rfl

/-! ## The sequential recursion -/

theorem Sequential.split_perm_aux (cmp : α → α → Ordering) :
    ∀ (n : Nat) (l : List α), l.length ≤ n →
    (Sequential.split cmp l).Perm l := by
  intro n
  induction n with
  | zero =>
    intro l hlen
    have : l = [] := List.length_eq_zero.mp (Nat.le_zero.mp hlen)
    subst this
    rw [Sequential.split]
    simp
  | succ n ih =>
    intro l hlen
    rw [Sequential.split]
    by_cases hgt : l.length > 1
    · rw [if_pos hgt]
      have htk : (l.take ((l.length + 1) / 2)).length ≤ n := by
        simp only [List.length_take]
        omega
      have hdp : (l.drop ((l.length + 1) / 2)).length ≤ n := by
        simp only [List.length_drop]
        omega
      refine (merge_perm cmp _ _).trans ?_
      refine ((ih _ htk).append (ih _ hdp)).trans ?_
      rw [List.take_append_drop]
    · rw [if_neg hgt]

/-- The sequential `split` returns a permutation of its input slice, for
every comparator whatsoever. -/
theorem Sequential.split_perm (cmp : α → α → Ordering) (l : List α) :
    (Sequential.split cmp l).Perm l :=
  Sequential.split_perm_aux cmp l.length l le_rfl

theorem Sequential.split_pairwise_aux (cmp : α → α → Ordering)
    (ht : TotalCmp cmp) :
    ∀ (n : Nat) (l : List α), l.length ≤ n →
    (Sequential.split cmp l).Pairwise (cmpLe cmp) := by
  intro n
  induction n with
  | zero =>
    intro l hlen
    have : l = [] := List.length_eq_zero.mp (Nat.le_zero.mp hlen)
    subst this
    rw [Sequential.split]
    simp
  | succ n ih =>
    intro l hlen
    rw [Sequential.split]
    by_cases hgt : l.length > 1
    · rw [if_pos hgt]
      have htk : (l.take ((l.length + 1) / 2)).length ≤ n := by
        simp only [List.length_take]
        omega
      have hdp : (l.drop ((l.length + 1) / 2)).length ≤ n := by
        simp only [List.length_drop]
        omega
      exact merge_pairwise ht (ih _ htk) (ih _ hdp)
    · rw [if_neg hgt]
      interval_cases h : l.length
      · rw [List.length_eq_zero.mp h]
        exact List.Pairwise.nil
      · obtain ⟨a, rfl⟩ := List.length_eq_one.mp h
        exact List.pairwise_singleton _ _

/-- The sequential `split` returns a sorted list, for every total-order
comparator. -/
theorem Sequential.split_pairwise (cmp : α → α → Ordering) (ht : TotalCmp cmp)
    (l : List α) : (Sequential.split cmp l).Pairwise (cmpLe cmp) :=
  Sequential.split_pairwise_aux cmp ht l.length l le_rfl

/-! ## The parallel recursion -/

/-- The thread budget never affects the value computed by the parallel
`split`. -/
theorem Parallel.split_threads_aux (cmp : α → α → Ordering) (array : List α) :
    ∀ (n start stop : Nat), stop - start ≤ n → ∀ (t : Nat),
    Parallel.split cmp array start stop t =
      Parallel.split cmp array start stop 1 := by
  intro n
  induction n with
  | zero =>
    intro start stop hlen t
    rw [Parallel.split, Parallel.split]
    have : ¬ stop - start > 1 := by omega
    rw [if_neg this, if_neg this]
  | succ n ih =>
    intro start stop hlen t
    rw [Parallel.split, Parallel.split]
    by_cases hgt : stop - start > 1
    · rw [if_pos hgt, if_pos hgt]
      dsimp only
      have hlow : (start + (stop - start + 1) / 2) - start ≤ n := by omega
      have hup : stop - (start + (stop - start + 1) / 2) ≤ n := by omega
      rw [if_neg (show ¬ (1 : Nat) > 1 by omega)]
      by_cases h1 : t > 1
      · rw [if_pos h1, ih _ _ hlow (t / 2), ih _ _ hup (t / 2)]
      · rw [if_neg h1]
    · rw [if_neg hgt, if_neg hgt]

theorem Parallel.split_threads (cmp : α → α → Ordering) (array : List α)
    (start stop t₁ t₂ : Nat) :
    Parallel.split cmp array start stop t₁ =
      Parallel.split cmp array start stop t₂ :=
  (Parallel.split_threads_aux cmp array (stop - start) start stop le_rfl t₁).trans
    (Parallel.split_threads_aux cmp array (stop - start) start stop le_rfl t₂).symm

/-- On an in-bounds range, the parallel recursion computes exactly the
sequential recursion applied to the selected slice. -/
theorem Parallel.split_eq_sequential_aux (cmp : α → α → Ordering)
    (array : List α) :
    ∀ (n start stop : Nat), stop - start ≤ n → stop ≤ array.length →
    ∀ (threads : Nat),
    Parallel.split cmp array start stop threads =
      Sequential.split cmp ((array.drop start).take (stop - start)) := by
  intro n
  induction n with
  | zero =>
    intro start stop hlen hstop threads
    have h0 : stop - start = 0 := Nat.le_zero.mp hlen
    rw [Parallel.split, Sequential.split, h0]
    simp
  | succ n ih =>
    intro start stop hlen hstop threads
    rw [Parallel.split]
    by_cases hgt : stop - start > 1
    · rw [if_pos hgt]
      have hslice_len : ((array.drop start).take (stop - start)).length
          = stop - start := by
        simp only [List.length_take, List.length_drop]
        omega
      rw [Sequential.split, hslice_len, if_pos hgt]
      dsimp only
      have hhalf : (stop - start + 1) / 2 ≥ 1 := by omega
      have hhalf2 : (stop - start + 1) / 2 ≤ stop - start := by omega
      have htake : ((array.drop start).take (stop - start)).take
          ((stop - start + 1) / 2) =
          (array.drop start).take
            ((start + (stop - start + 1) / 2) - start) := by
        rw [List.take_take]
        congr 1
        omega
      have hdrop : ((array.drop start).take (stop - start)).drop
          ((stop - start + 1) / 2) =
          (array.drop (start + (stop - start + 1) / 2)).take
            (stop - (start + (stop - start + 1) / 2)) := by
        rw [List.drop_take, List.drop_drop]
        congr 1
        omega
      have hlow_le : (start + (stop - start + 1) / 2) - start ≤ n := by omega
      have hup_le : stop - (start + (stop - start + 1) / 2) ≤ n := by omega
      have hlow_stop : start + (stop - start + 1) / 2 ≤ array.length := by
        omega
      rw [htake, hdrop]
      by_cases ht1 : threads > 1
      · rw [if_pos ht1, ih _ _ hlow_le hlow_stop (threads / 2),
          ih _ _ hup_le hstop (threads / 2)]
      · rw [if_neg ht1, ih _ _ hlow_le hlow_stop 1, ih _ _ hup_le hstop 1]
    · rw [if_neg hgt]
      have hslice_len : ((array.drop start).take (stop - start)).length ≤ 1 := by
        simp only [List.length_take, List.length_drop]
        omega
      rw [Sequential.split, if_neg (by omega)]

theorem Parallel.split_eq_sequential (cmp : α → α → Ordering)
    (array : List α) (start stop threads : Nat)
    (hstop : stop ≤ array.length) :
    Parallel.split cmp array start stop threads =
      Sequential.split cmp ((array.drop start).take (stop - start)) :=
  Parallel.split_eq_sequential_aux cmp array (stop - start) start stop
    le_rfl hstop threads

/-! ## Thread-spawn accounting -/

theorem Parallel.spawnCount_le_aux :
    ∀ (n start stop : Nat), stop - start ≤ n → ∀ (t : Nat),
    Parallel.spawnCount start stop t ≤ t - 1 := by
  intro n
  induction n with
  | zero =>
    intro start stop hlen t
    rw [Parallel.spawnCount, if_neg (by omega)]
    exact Nat.zero_le _
  | succ n ih =>
    intro start stop hlen t
    rw [Parallel.spawnCount]
    by_cases hgt : stop - start > 1
    · rw [if_pos hgt]
      dsimp only
      have hlow : (start + (stop - start + 1) / 2) - start ≤ n := by omega
      have hup : stop - (start + (stop - start + 1) / 2) ≤ n := by omega
      by_cases ht : t > 1
      · rw [if_pos ht]
        have h1 := ih _ _ hlow (t / 2)
        have h2 := ih _ _ hup (t / 2)
        omega
      · rw [if_neg ht]
        have h1 := ih _ _ hlow 1
        have h2 := ih _ _ hup 1
        omega
    · rw [if_neg hgt]
      exact Nat.zero_le _

/-- Spawn bound: at most `threads - 1` workers ever come into existence. -/
theorem Parallel.spawnCount_le (start stop threads : Nat) :
    Parallel.spawnCount start stop threads ≤ threads - 1 :=
  Parallel.spawnCount_le_aux (stop - start) start stop le_rfl threads

/-- With a thread budget of at most one (in particular zero), no worker
thread is ever spawned. -/
theorem Parallel.spawnCount_eq_zero_aux :
    ∀ (n start stop : Nat), stop - start ≤ n → ∀ (t : Nat), t ≤ 1 →
    Parallel.spawnCount start stop t = 0 := by
  intro n
  induction n with
  | zero =>
    intro start stop hlen t htle
    rw [Parallel.spawnCount, if_neg (by omega)]
  | succ n ih =>
    intro start stop hlen t htle
    rw [Parallel.spawnCount]
    by_cases hgt : stop - start > 1
    · rw [if_pos hgt]
      dsimp only
      have hlow : (start + (stop - start + 1) / 2) - start ≤ n := by omega
      have hup : stop - (start + (stop - start + 1) / 2) ≤ n := by omega
      rw [if_neg (by omega), ih _ _ hlow 1 le_rfl, ih _ _ hup 1 le_rfl]
    · rw [if_neg hgt]

/-! ## Panic behaviour on malformed ranges -/

/-- An option-bind whose continuation always aborts aborts itself. -/
theorem bind_eq_none_of_forall {A B : Type u} (o : Option A)
    (f : A → Option B) (h : ∀ a, f a = none) : Bind.bind o f = none := by
  cases o with
  | none => rfl
  | some a => exact h a

theorem Parallel.splitChecked_eq_aux (cmp : α → α → Ordering)
    (array : List α) :
    ∀ (n start stop : Nat), stop - start ≤ n → ∀ (threads : Nat),
    Parallel.splitChecked cmp array start stop threads =
      if start ≤ stop ∧ stop ≤ array.length
      then some (Parallel.split cmp array start stop threads)
      else none := by
  intro n
  induction n with
  | zero =>
    intro start stop hlen threads
    rw [Parallel.splitChecked, if_neg (show ¬ stop - start > 1 by omega),
      Parallel.split, if_neg (show ¬ stop - start > 1 by omega)]
  | succ n ih =>
    intro start stop hlen threads
    rw [Parallel.splitChecked, Parallel.split]
    by_cases hgt : stop - start > 1
    · rw [if_pos hgt, if_pos hgt]
      dsimp only
      have hlow_le : (start + (stop - start + 1) / 2) - start ≤ n := by omega
      have hup_le : stop - (start + (stop - start + 1) / 2) ≤ n := by omega
      by_cases hlen2 : stop ≤ array.length
      · have hcL : start ≤ start + (stop - start + 1) / 2 ∧
            start + (stop - start + 1) / 2 ≤ array.length := ⟨by omega, by omega⟩
        have hcU : start + (stop - start + 1) / 2 ≤ stop ∧
            stop ≤ array.length := ⟨by omega, hlen2⟩
        have hcT : start ≤ stop ∧ stop ≤ array.length := ⟨by omega, hlen2⟩
        by_cases ht : threads > 1
        · rw [if_pos ht, if_pos ht, ih _ _ hlow_le (threads / 2),
            ih _ _ hup_le (threads / 2), if_pos hcL, if_pos hcU, if_pos hcT]
          rfl
        · rw [if_neg ht, if_neg ht, ih _ _ hlow_le 1,
            ih _ _ hup_le 1, if_pos hcL, if_pos hcU, if_pos hcT]
          rfl
      · have hcond : ¬ (start ≤ stop ∧ stop ≤ array.length) :=
          fun h => hlen2 h.2
        rw [if_neg hcond]
        by_cases ht : threads > 1
        · rw [if_pos ht]
          refine bind_eq_none_of_forall _ _ ?_
          intro lower
          rw [ih _ _ hup_le (threads / 2), if_neg (fun h => hlen2 h.2)]
          rfl
        · rw [if_neg ht]
          refine bind_eq_none_of_forall _ _ ?_
          intro lower
          rw [ih _ _ hup_le 1, if_neg (fun h => hlen2 h.2)]
          rfl
    · rw [if_neg hgt, if_neg hgt]

/-- Panic characterization: with an in-bounds range the checked parallel
recursion returns the value of the pure recursion; with a malformed range
(`start > stop` or `stop > length`) it aborts. -/
theorem Parallel.splitChecked_eq (cmp : α → α → Ordering) (array : List α)
    (start stop threads : Nat) :
    Parallel.splitChecked cmp array start stop threads =
      if start ≤ stop ∧ stop ≤ array.length
      then some (Parallel.split cmp array start stop threads)
      else none :=
  Parallel.splitChecked_eq_aux cmp array (stop - start) start stop
    le_rfl threads

theorem totalCmp_cmpN : TotalCmp cmpN := by
  constructor
  · intro a b
    unfold cmpN
    split_ifs with h1 h2 h3 h2 h3 h4 <;> first
      | (exfalso; omega)
      | simp [Ordering.swap]
  · intro a b c hab hbc
    unfold cmpN at *
    split_ifs at * <;> simp_all <;> omega

theorem totalCmp_cmpFst : TotalCmp cmpFst := by
  constructor
  · intro a b
    exact totalCmp_cmpN.swap a.1 b.1
  · intro a b c
    exact totalCmp_cmpN.le_trans a.1 b.1 c.1

/-! ## Derived facts used by several claims -/

theorem Parallel.split_perm_slice (cmp : α → α → Ordering) (array : List α)
    (start stop threads : Nat) (h : stop ≤ array.length) :
    (Parallel.split cmp array start stop threads).Perm
      ((array.drop start).take (stop - start)) := by
  rw [Parallel.split_eq_sequential cmp array start stop threads h]
  exact Sequential.split_perm cmp _

theorem Parallel.split_pairwise_slice (cmp : α → α → Ordering) (ht : TotalCmp cmp)
    (array : List α) (start stop threads : Nat) (h : stop ≤ array.length) :
    (Parallel.split cmp array start stop threads).Pairwise (cmpLe cmp) := by
  rw [Parallel.split_eq_sequential cmp array start stop threads h]
  exact Sequential.split_pairwise cmp ht _

theorem Parallel.SortOptions.sort_some (threads : Nat)
    (cmp : α → α → Ordering) (s e : Nat) (array : List α) :
    (Parallel.SortOptions.mk threads cmp (some (s, e))).sort array =
      Parallel.split cmp array s e threads := rfl

theorem Parallel.SortOptions.sort_none (threads : Nat)
    (cmp : α → α → Ordering) (array : List α) :
    (Parallel.SortOptions.mk threads cmp none).sort array =
      Parallel.split cmp array 0 array.length threads := rfl

theorem slice_length (array : List α) (start stop : Nat)
    (h1 : start ≤ stop) (h2 : stop ≤ array.length) :
    ((array.drop start).take (stop - start)).length = stop - start := by
  simp only [List.length_take, List.length_drop]
  omega

/-- Two lists that are permutations of each other and whose elements are all
mutually equal are equal. -/
theorem eq_of_perm_of_all_eq {l₁ l₂ : List α} (hp : l₁.Perm l₂)
    (h : ∀ a ∈ l₂, ∀ b ∈ l₂, a = b) : l₁ = l₂ := by
  cases l₂ with
  | nil => exact List.Perm.eq_nil hp
  | cons c t =>
    have h₂ : c :: t = List.replicate (c :: t).length c :=
      List.eq_replicate_of_mem
        (fun b hb => h b hb c (List.mem_cons_self _ _))
    have h₁ : l₁ = List.replicate l₁.length c :=
      List.eq_replicate_of_mem
        (fun b hb => h b (hp.mem_iff.mp hb) c (List.mem_cons_self _ _))
    rw [h₁, h₂, hp.length_eq]

/-! ## The claims -/

/-- Claim C1: for every input array, valid range, and total-order comparator,
the output of the sort — parallel with any thread count, or sequential — is
sorted: for adjacent output positions, the comparator applied to
(earlier, later) does not return `Greater`. -/
theorem claim1_sort_output_sorted (cmp : α → α → Ordering) (ht : TotalCmp cmp)
    (array : List α) (start stop threads : Nat) (l : List α)
    (h1 : start ≤ stop) (h2 : stop ≤ array.length) :
    (Parallel.split cmp array start stop threads).Chain'
      (fun a b => cmp a b ≠ Ordering.gt) ∧
    (Sequential.split cmp l).Chain' (fun a b => cmp a b ≠ Ordering.gt) :=
  ⟨(Parallel.split_pairwise_slice cmp ht array start stop threads h2).chain',
   (Sequential.split_pairwise cmp ht l).chain'⟩

theorem claim1_witness :
    TotalCmp cmpN ∧ 0 ≤ 3 ∧ 3 ≤ ([2, 1, 3] : List Nat).length ∧
    ((Parallel.split cmpN [2, 1, 3] 0 3 2).Chain'
        (fun a b => cmpN a b ≠ Ordering.gt) ∧
      (Sequential.split cmpN [3, 1, 2]).Chain'
        (fun a b => cmpN a b ≠ Ordering.gt)) :=
  ⟨totalCmp_cmpN, by decide, by decide,
    claim1_sort_output_sorted cmpN totalCmp_cmpN [2, 1, 3] 0 3 2 [3, 1, 2]
      (by decide) (by decide)⟩

/-- Claim C2: for every input array, valid range, and comparator, the
multiset of elements of the sort's output equals the multiset of the selected
input range, and the output length of every recursive call equals the length
of its input range. -/
theorem claim2_sort_is_permutation (cmp : α → α → Ordering)
    (array : List α) (start stop threads : Nat)
    (h1 : start ≤ stop) (h2 : stop ≤ array.length) :
    ((Parallel.SortOptions.mk threads cmp (some (start, stop))).sort
        array).Perm ((array.drop start).take (stop - start)) ∧
    ∀ s e t, s ≤ e → e ≤ array.length →
      (Parallel.split cmp array s e t).length = e - s := by
  constructor
  · rw [Parallel.SortOptions.sort_some]
    exact Parallel.split_perm_slice cmp array start stop threads h2
  · intro s e t hs he
    rw [(Parallel.split_perm_slice cmp array s e t he).length_eq]
    exact slice_length array s e hs he

theorem claim2_witness :
    0 ≤ 3 ∧ 3 ≤ ([5, 4, 6] : List Nat).length ∧
    (((Parallel.SortOptions.mk 4 cmpN (some (0, 3))).sort
        [5, 4, 6]).Perm (([5, 4, 6].drop 0).take (3 - 0)) ∧
      ∀ s e t, s ≤ e → e ≤ ([5, 4, 6] : List Nat).length →
        (Parallel.split cmpN [5, 4, 6] s e t).length = e - s) :=
  ⟨by decide, by decide,
    claim2_sort_is_permutation cmpN [5, 4, 6] 0 3 4 (by decide) (by decide)⟩

/-- Claim C3 (counterexample): the sort is not stable.  With the array
`[(1,0), (2,1), (0,2), (2,3)]` and the comparator that compares only the
first components, the elements `(2,1)` and `(2,3)` compare `Equal` and appear
in that order in the input, yet the sort emits `(2,3)` before `(2,1)`. -/
theorem claim3_counterexample :
    cmpFst (2, 1) (2, 3) = Ordering.eq ∧
    List.indexOf ((2, 1) : Nat × Nat) [(1, 0), (2, 1), (0, 2), (2, 3)] <
      List.indexOf ((2, 3) : Nat × Nat) [(1, 0), (2, 1), (0, 2), (2, 3)] ∧
    ¬ List.indexOf ((2, 1) : Nat × Nat)
        ((Parallel.SortOptions.mk 8 cmpFst none).sort
          [(1, 0), (2, 1), (0, 2), (2, 3)]) <
      List.indexOf ((2, 3) : Nat × Nat)
        ((Parallel.SortOptions.mk 8 cmpFst none).sort
          [(1, 0), (2, 1), (0, 2), (2, 3)]) := by
  have hout : (Parallel.SortOptions.mk 8 cmpFst none).sort
      [(1, 0), (2, 1), (0, 2), (2, 3)] = [(0, 2), (1, 0), (2, 3), (2, 1)] := by
    simp [Parallel.SortOptions.sort, Parallel.split, merge, mergeLoop,
      mergeWhileLess, cmpFst, cmpN]
  rw [hout]
  refine ⟨rfl, by decide, by decide⟩

/-- Claim C3 (amended): the sort is not stable in general — at each merge the
currently carried pivot precedes any element comparing `Equal` to it, whether
the pivot came from the left or the right half, so a right-half element can
precede an `Equal` left-half element.  Stability does hold whenever the
comparator never reports `Equal` on two distinct elements of the range: then
for every key, the output's subsequence of elements comparing `Equal` to that
key coincides with the input range's. -/
theorem claim3_amended (cmp : α → α → Ordering) (ht : TotalCmp cmp)
    (array : List α) (start stop threads : Nat)
    (h1 : start ≤ stop) (h2 : stop ≤ array.length)
    (hnt : ∀ a ∈ (array.drop start).take (stop - start),
        ∀ b ∈ (array.drop start).take (stop - start),
        cmp a b = Ordering.eq → a = b)
    (x : α) :
    (Parallel.split cmp array start stop threads).filter
        (fun y => decide (cmp y x = Ordering.eq)) =
      ((array.drop start).take (stop - start)).filter
        (fun y => decide (cmp y x = Ordering.eq)) := by
  refine eq_of_perm_of_all_eq
    ((Parallel.split_perm_slice cmp array start stop threads h2).filter _) ?_
  intro a ha b hb
  rw [List.mem_filter] at ha hb
  have hax : cmp a x = Ordering.eq := of_decide_eq_true ha.2
  have hbx : cmp b x = Ordering.eq := of_decide_eq_true hb.2
  exact hnt a ha.1 b hb.1 (ht.eq_of_eq_eq hax hbx)

theorem claim3_amended_witness :
    TotalCmp cmpN ∧ 0 ≤ 2 ∧ 2 ≤ ([7, 3] : List Nat).length ∧
    (∀ a ∈ (([7, 3] : List Nat).drop 0).take (2 - 0),
      ∀ b ∈ (([7, 3] : List Nat).drop 0).take (2 - 0),
      cmpN a b = Ordering.eq → a = b) ∧
    (Parallel.split cmpN [7, 3] 0 2 2).filter
        (fun y => decide (cmpN y 3 = Ordering.eq)) =
      ((([7, 3] : List Nat).drop 0).take (2 - 0)).filter
        (fun y => decide (cmpN y 3 = Ordering.eq)) :=
  ⟨totalCmp_cmpN, by decide, by decide, by decide,
    claim3_amended cmpN totalCmp_cmpN [7, 3] 0 2 2 (by decide) (by decide)
      (by decide) 3⟩

/-- Claim C4: for a fixed array, range, and comparator, the parallel
recursion returns the same output under every thread budget, and that output
equals the sequential recursion applied to the selected slice. -/
theorem claim4_thread_count_invariance (cmp : α → α → Ordering)
    (array : List α) (start stop t₁ t₂ : Nat) (h : stop ≤ array.length) :
    Parallel.split cmp array start stop t₁ =
      Parallel.split cmp array start stop t₂ ∧
    Parallel.split cmp array start stop t₁ =
      Sequential.split cmp ((array.drop start).take (stop - start)) :=
  ⟨Parallel.split_threads cmp array start stop t₁ t₂,
   Parallel.split_eq_sequential cmp array start stop t₁ h⟩

theorem claim4_witness :
    3 ≤ ([9, 8, 7] : List Nat).length ∧
    (Parallel.split cmpN [9, 8, 7] 0 3 1 =
        Parallel.split cmpN [9, 8, 7] 0 3 64 ∧
      Parallel.split cmpN [9, 8, 7] 0 3 1 =
        Sequential.split cmpN ((([9, 8, 7] : List Nat).drop 0).take (3 - 0))) :=
  ⟨by decide, claim4_thread_count_invariance cmpN [9, 8, 7] 0 3 1 64 (by decide)⟩

/-- Claim C5 (counterexample): the pivot-carrying merge does not always equal
the textbook stable two-pointer merge.  On the sorted inputs
`[(1,0), (2,1)]` and `[(0,2), (2,3)]` under the first-component comparator
(a total order), the two functions return different sequences. -/
theorem claim5_counterexample :
    TotalCmp cmpFst ∧
    List.Pairwise (cmpLe cmpFst) [(1, 0), (2, 1)] ∧
    List.Pairwise (cmpLe cmpFst) [(0, 2), (2, 3)] ∧
    merge cmpFst [(1, 0), (2, 1)] [(0, 2), (2, 3)] ≠
      twoPointerMerge cmpFst [(1, 0), (2, 1)] [(0, 2), (2, 3)] := by
  refine ⟨totalCmp_cmpFst, by decide, by decide, ?_⟩
  have h1 : merge cmpFst [(1, 0), (2, 1)] [(0, 2), (2, 3)] =
      [(0, 2), (1, 0), (2, 3), (2, 1)] := by
    simp [merge, mergeLoop, mergeWhileLess, cmpFst, cmpN]
  have h2 : twoPointerMerge cmpFst [(1, 0), (2, 1)] [(0, 2), (2, 3)] =
      [(0, 2), (1, 0), (2, 1), (2, 3)] := by
    simp [twoPointerMerge, cmpFst, cmpN]
  rw [h1, h2]
  decide

/-- Claim C5 (amended): the pivot-carrying merge equals the textbook stable
two-pointer merge on every pair of sequences sorted by the same total-order
comparator, provided no element of the left sequence compares `Equal` to an
element of the right sequence; when such cross ties occur, the two merges can
differ (the pivot merge lets the current pivot win the tie regardless of
side). -/
theorem claim5_amended (cmp : α → α → Ordering) (ht : TotalCmp cmp)
    (lower upper : List α)
    (hl : lower.Pairwise (cmpLe cmp)) (hu : upper.Pairwise (cmpLe cmp))
    (hnt : ∀ x ∈ lower, ∀ y ∈ upper, cmp x y ≠ Ordering.eq) :
    merge cmp lower upper = twoPointerMerge cmp lower upper :=
  merge_eq_twoPointerMerge ht hnt

theorem claim5_amended_witness :
    TotalCmp cmpN ∧
    List.Pairwise (cmpLe cmpN) [1, 4] ∧
    List.Pairwise (cmpLe cmpN) [2, 3] ∧
    (∀ x ∈ ([1, 4] : List Nat), ∀ y ∈ ([2, 3] : List Nat),
      cmpN x y ≠ Ordering.eq) ∧
    merge cmpN [1, 4] [2, 3] = twoPointerMerge cmpN [1, 4] [2, 3] :=
  ⟨totalCmp_cmpN, by decide, by decide, by decide,
    claim5_amended cmpN totalCmp_cmpN [1, 4] [2, 3] (by decide) (by decide)
      (by decide)⟩

/-- Claim C6: sorting a valid sub-range of an array yields the same sequence
as full-range sorting the corresponding sub-array, and when no range is
configured the effective range is `[0, length)`. -/
theorem claim6_range_correctness (cmp : α → α → Ordering) (threads : Nat)
    (array : List α) (start stop : Nat)
    (h1 : start ≤ stop) (h2 : stop ≤ array.length) :
    (Parallel.SortOptions.mk threads cmp (some (start, stop))).sort array =
      (Parallel.SortOptions.mk threads cmp none).sort
        ((array.drop start).take (stop - start)) ∧
    ∀ (opts : Parallel.SortOptions α) (arr : List α), opts.range = none →
      opts.sort arr = Parallel.split opts.compare arr 0 arr.length opts.threads := by
  constructor
  · rw [Parallel.SortOptions.sort_some, Parallel.SortOptions.sort_none]
    rw [Parallel.split_eq_sequential cmp array start stop threads h2]
    rw [Parallel.split_eq_sequential cmp _ 0 _ threads le_rfl]
    rw [List.drop_zero, Nat.sub_zero, List.take_length]
  · intro opts arr h
    unfold Parallel.SortOptions.sort
    rw [h]
    rfl

theorem claim6_witness :
    1 ≤ 3 ∧ 3 ≤ ([4, 9, 2, 5] : List Nat).length ∧
    ((Parallel.SortOptions.mk 4 cmpN (some (1, 3))).sort [4, 9, 2, 5] =
        (Parallel.SortOptions.mk 4 cmpN none).sort
          ((([4, 9, 2, 5] : List Nat).drop 1).take (3 - 1)) ∧
      ∀ (opts : Parallel.SortOptions Nat) (arr : List Nat), opts.range = none →
        opts.sort arr = Parallel.split opts.compare arr 0 arr.length opts.threads) :=
  ⟨by decide, by decide,
    claim6_range_correctness cmpN 4 [4, 9, 2, 5] 1 3 (by decide) (by decide)⟩

/-- Claim C7: across one top-level parallel sort call with initial thread
budget `threads`, at most `threads - 1` worker threads are spawned,
independently of the range (and of the array and comparator, on which the
spawn count does not depend at all). -/
theorem claim7_spawn_bound (start stop threads : Nat) :
    Parallel.spawnCount start stop threads ≤ threads - 1 :=
  Parallel.spawnCount_le start stop threads

/-- Claim C8: a configured thread count of 0 behaves exactly like 1: the sort
spawns no worker thread, does not fail (it is a total function), and returns
the same output as with thread count 1, for every array, range, and
comparator. -/
theorem claim8_zero_threads (cmp : α → α → Ordering) (array : List α)
    (start stop : Nat) (range : Option (Nat × Nat)) :
    Parallel.spawnCount start stop 0 = 0 ∧
    Parallel.split cmp array start stop 0 =
      Parallel.split cmp array start stop 1 ∧
    (Parallel.SortOptions.mk 0 cmp range).sort array =
      (Parallel.SortOptions.mk 1 cmp range).sort array := by
  refine ⟨Parallel.spawnCount_eq_zero_aux (stop - start) start stop le_rfl 0
      (by omega),
    Parallel.split_threads cmp array start stop 0 1, ?_⟩
  unfold Parallel.SortOptions.sort
  exact Parallel.split_threads cmp array _ _ 0 1

/-- Claim C9: on a range satisfying `start ≤ stop ≤ length` the sort performs
no out-of-bounds access and returns normally with the value of the pure
recursion; on a malformed range (`start > stop` or `stop > length`) it
panics instead of returning a result. -/
theorem claim9_range_contract (cmp : α → α → Ordering) (array : List α)
    (start stop threads : Nat) :
    Parallel.splitChecked cmp array start stop threads =
      if start ≤ stop ∧ stop ≤ array.length
      then some (Parallel.split cmp array start stop threads)
      else none :=
  Parallel.splitChecked_eq cmp array start stop threads

/-- Claim C10: for every comparator whatsoever — including ones that are not
total orders — the merge and the sort are total functions whose output is a
permutation of their input of the same length: `merge` permutes the
concatenation of its two inputs, the sequential sort permutes its input
slice, and the parallel sort over any valid range permutes the selected
range. -/
theorem claim10_any_comparator_permutation (cmp : α → α → Ordering)
    (lower upper l : List α) :
    (merge cmp lower upper).Perm (lower ++ upper) ∧
    (merge cmp lower upper).length = lower.length + upper.length ∧
    (Sequential.split cmp l).Perm l ∧
    (Sequential.split cmp l).length = l.length ∧
    ∀ (array : List α) (s e t : Nat), s ≤ e → e ≤ array.length →
      (Parallel.split cmp array s e t).Perm
        ((array.drop s).take (e - s)) := by
  refine ⟨merge_perm cmp lower upper, ?_, Sequential.split_perm cmp l, ?_, ?_⟩
  · rw [(merge_perm cmp lower upper).length_eq, List.length_append]
  · exact (Sequential.split_perm cmp l).length_eq
  · intro array s e t hs he
    exact Parallel.split_perm_slice cmp array s e t he

theorem claim10_witness :
    ((merge cmpN [2] [1]).Perm ([2] ++ [1]) ∧
      (merge cmpN [2] [1]).length = [2].length + [1].length ∧
      (Sequential.split cmpN [3, 1]).Perm [3, 1] ∧
      (Sequential.split cmpN [3, 1]).length = ([3, 1] : List Nat).length ∧
      ∀ (array : List Nat) (s e t : Nat), s ≤ e → e ≤ array.length →
        (Parallel.split cmpN array s e t).Perm
          ((array.drop s).take (e - s))) :=
  claim10_any_comparator_permutation cmpN [2] [1] [3, 1]

end MergesortCmp
